import Mathlib

/-!
Verification model of the dice-notation interpreter of the `wakebot` chat bot
(`src/rolls_v2.rs`).  Source text is modelled as `List Char` (all inputs of
interest are ASCII, so Rust byte offsets coincide with character offsets).
Randomness (`rand::thread_rng().gen_range(1..=max)`) is modelled by an explicit
trace: a list of the successive values produced by the generator; a value that
could not have been produced (out of range, or an exhausted trace) yields a
distinguished modelling artifact.  Process aborts (`panic!`, `expect`,
`unwrap`) are modelled by the `Outcome.panic` constructor, recoverable
`WakeBotError` values by `Outcome.err`.  Machine integers are modelled by
`Nat`/`Int` with explicit bounds: `usize` parsing fails above `2^64 - 1`
(the deployment target is 64-bit), `i32` parsing fails above `2^31 - 1`, and
the `u32` accumulation of `roll_total` wraps modulo `2^32` (release-profile
semantics of `a += n as u32`).
-/

namespace Wakebot

open scoped List

/-- Constant `MAX_QUANTITY` from `rolls_v2.rs`. -/
def MAX_QUANTITY : Nat := 1000

/-- Largest value of a 64-bit `usize`. -/
def USIZE_MAX : Nat := 18446744073709551615

/-- Largest value of an `i32`. -/
def I32_MAX : Nat := 2147483647

/-- Modulus of wrapping `u32` arithmetic. -/
def U32_MOD : Nat := 4294967296

/-- Shorthand: the character list of a string literal. -/
def strL (s : String) : List Char := s.toList

/-- Numeric value of an ASCII digit. -/
def digitVal (c : Char) : Nat := c.toNat - 48

/-- Whether a character is an ASCII digit (the regex class `\d`). -/
def isDig (c : Char) : Bool := c.isDigit

/-- Value of a digit string read in base 10 (leading zeros allowed). -/
def digitsToNat (l : List Char) : Nat := l.foldl (fun a c => 10 * a + digitVal c) 0

/-- Rust `str::parse::<usize>` restricted to the digit strings produced by the
regexes: fails on the empty string, on a non-digit, and on overflow past
`usize::MAX`. -/
def parseUsize (l : List Char) : Option Nat :=
  if l ≠ [] ∧ l.all isDig ∧ digitsToNat l ≤ USIZE_MAX then some (digitsToNat l) else none

/-- Rust `str::parse::<i32>` on a digit string: as `parseUsize` but bounded by
`i32::MAX`. -/
def parseI32 (l : List Char) : Option Nat :=
  if l ≠ [] ∧ l.all isDig ∧ digitsToNat l ≤ I32_MAX then some (digitsToNat l) else none

/-- Maximal digit prefix of a string together with the remainder (the greedy
behaviour of `\d*` / `\d+`). -/
def digitRun : List Char → List Char × List Char
  | [] => ([], [])
  | c :: cs =>
    if isDig c then
      let p := digitRun cs
      (c :: p.1, p.2)
    else ([], c :: cs)

/-- The keep-selector alternatives `k`, `kh`, `kl` of `ROLL_REGEX`. -/
inductive KeepMode where
  | k
  | kh
  | kl
deriving DecidableEq, Repr

/-- The literal text matched by the keep-selector alternation. -/
def KeepMode.chars : KeepMode → List Char
  | .k => ['k']
  | .kh => ['k', 'h']
  | .kl => ['k', 'l']

/-- Text of the optional keep group (groups 4–6 of `ROLL_REGEX`). -/
def keepRender : Option (KeepMode × List Char) → List Char
  | none => []
  | some (m, ds) => m.chars ++ ds

/-- Matching of the optional group `((k|kh|kl)(\d+))?` of `ROLL_REGEX` at the
head of `l`.  The backtracking alternation tries `k` first, so `k` matches
exactly when a digit follows it, then `kh`, then `kl`; when no alternative is
followed by a digit the whole optional group matches the empty string. -/
def keepParse (l : List Char) : Option (KeepMode × List Char) × List Char :=
  match l with
  | c0 :: c :: r =>
    if c0 = 'k' then
      if isDig c then
        let p := digitRun (c :: r)
        (some (KeepMode.k, p.1), p.2)
      else if c = 'h' then
        match r with
        | c2 :: _ =>
          if isDig c2 then
            let p := digitRun r
            (some (KeepMode.kh, p.1), p.2)
          else (none, l)
        | [] => (none, l)
      else if c = 'l' then
        match r with
        | c2 :: _ =>
          if isDig c2 then
            let p := digitRun r
            (some (KeepMode.kl, p.1), p.2)
          else (none, l)
        | [] => (none, l)
      else (none, l)
    else (none, l)
  | _ => (none, l)

/-- Matching of the number part `(\d+(?!\.)|(\d*\.\d+))(?!d)` of a suffix unit
of `ROLL_REGEX`, with the backtracking behaviour of a PCRE-style engine
(`fancy_regex`): the greedy first alternative gives back one digit when the
lookahead `(?!\.)` or the trailing `(?!d)` fails, and the second alternative is
reached only when the first has no viable length. -/
def numParse (l : List Char) : Option (List Char × List Char) :=
  match (digitRun l).2 with
  | [] => if (digitRun l).1 = [] then none else some ((digitRun l).1, [])
  | c :: r2 =>
    if (digitRun l).1 ≠ [] ∧ c ≠ '.' ∧ c ≠ 'd' then some ((digitRun l).1, c :: r2)
    else if 2 ≤ (digitRun l).1.length ∧ (c = '.' ∨ c = 'd') then
      match (digitRun l).1.getLast? with
      | some lastd => some ((digitRun l).1.dropLast, lastd :: c :: r2)
      | none => none
    else if c = '.' then
      if (digitRun r2).1 = [] then none
      else
        match (digitRun r2).2 with
        | [] => some ((digitRun l).1 ++ '.' :: (digitRun r2).1, [])
        | c2 :: r3 =>
          if c2 ≠ 'd' then some ((digitRun l).1 ++ '.' :: (digitRun r2).1, c2 :: r3)
          else if 2 ≤ (digitRun r2).1.length then
            match (digitRun r2).1.getLast? with
            | some laste =>
              some ((digitRun l).1 ++ '.' :: (digitRun r2).1.dropLast, laste :: c2 :: r3)
            | none => none
          else none
    else none

/-- The optional-space atom ` ?` (greedy). -/
def optSpace : List Char → List Char × List Char
  | [] => ([], [])
  | c :: r => if c = ' ' then ([c], r) else ([], c :: r)

/-- One suffix unit of group 7 of `ROLL_REGEX`: an optional space, an operator
from the class `+ - * /` (written `[+ * / -]` in the pattern), an optional
space, and a number. -/
def suffixUnit (l : List Char) : Option (List Char × List Char) :=
  match (optSpace l).2 with
  | c :: l2 =>
    if c = '+' ∨ c = '*' ∨ c = '/' ∨ c = '-' then
      match numParse (optSpace l2).2 with
      | some (nm, r) => some ((optSpace l).1 ++ c :: (optSpace l2).1 ++ nm, r)
      | none => none
    else none
  | [] => none

/-- The starred suffix group (group 7): greedily match
units until one fails.  `fuel` bounds the number of units; every unit consumes
at least two characters, so `l.length + 1` is always sufficient. -/
def suffixRunF : Nat → List Char → List Char × List Char
  | 0, l => ([], l)
  | f + 1, l =>
    match suffixUnit l with
    | some (u, r) => (u ++ (suffixRunF f r).1, (suffixRunF f r).2)
    | none => ([], l)

/-- The component strings of one `ROLL_REGEX` match: capture groups 2 (count),
3 (sides), 5–6 (keep selector), 7 (suffix), and the unmatched remainder. -/
structure MatchParts where
  countStr : List Char
  sidesStr : List Char
  keep : Option (KeepMode × List Char)
  suffix : List Char
  rest : List Char
deriving DecidableEq, Repr

/-- Attempt to match `ROLL_REGEX` at the start of `l`.  A match requires the
maximal digit run to be followed by `d` and at least one digit; the keep and
suffix groups are optional/starred and never fail the match. -/
def matchAt (l : List Char) : Option MatchParts :=
  match (digitRun l).2 with
  | c :: r2 =>
    if c = 'd' then
      if (digitRun r2).1 = [] then none
      else
        some ⟨(digitRun l).1, (digitRun r2).1, (keepParse (digitRun r2).2).1,
          (suffixRunF ((keepParse (digitRun r2).2).2.length + 1) (keepParse (digitRun r2).2).2).1,
          (suffixRunF ((keepParse (digitRun r2).2).2.length + 1) (keepParse (digitRun r2).2).2).2⟩
    else none
  | [] => none

/-- A leftmost `ROLL_REGEX` match: the text before the match and its parts. -/
structure RollMatch where
  pre : List Char
  parts : MatchParts
deriving DecidableEq, Repr

/-- Capture group 1 (the dice term proper: `(\d*)d(\d+)((k|kh|kl)(\d+))?`). -/
def RollMatch.g1 (m : RollMatch) : List Char :=
  m.parts.countStr ++ 'd' :: m.parts.sidesStr ++ keepRender m.parts.keep

/-- Capture group 0 (the full match: dice term plus suffix). -/
def RollMatch.g0 (m : RollMatch) : List Char :=
  m.g1 ++ m.parts.suffix

/-- Leftmost-match scan of `ROLL_REGEX` (`Regex::captures` semantics): try each
start position from the left. -/
def rollFindAux (pre : List Char) : List Char → Option RollMatch
  | [] => none
  | c :: cs =>
    match matchAt (c :: cs) with
    | some parts => some ⟨pre.reverse, parts⟩
    | none => rollFindAux (c :: pre) cs

/-- First `ROLL_REGEX` match in `s`, if any. -/
def rollFind (s : List Char) : Option RollMatch := rollFindAux [] s

/-- Index of the last occurrence of `c` in `l`. -/
def lastIdxOf (c : Char) : List Char → Option Nat
  | [] => none
  | a :: r =>
    match lastIdxOf c r with
    | some k => some (k + 1)
    | none => if a = c then some 0 else none

/-- Leftmost match of `PAREN_REGEX` (`\((.+)\)`): scan for the first `(` after
which the greedy `.+` can reach a `)` leaving at least one interior character;
`.` does not cross a newline, and greediness selects the last reachable `)`.
Returns the byte span `(start, end)` of capture group 1 (the interior). -/
def parenFindAux : Nat → List Char → Option (Nat × Nat)
  | _, [] => none
  | idx, c :: rest =>
    if c = '(' then
      match lastIdxOf ')' (rest.takeWhile (fun x => x ≠ '\n')) with
      | some k => if 1 ≤ k then some (idx + 1, idx + 1 + k) else parenFindAux (idx + 1) rest
      | none => parenFindAux (idx + 1) rest
    else parenFindAux (idx + 1) rest

/-- First `PAREN_REGEX` match in `s`: group-1 span, if any. -/
def parenFind (s : List Char) : Option (Nat × Nat) := parenFindAux 0 s

/-- Rust `str::find`: byte index of the first occurrence of `pat`. -/
def firstOccur (pat : List Char) : List Char → Option Nat
  | [] => if pat.isEmpty then some 0 else none
  | c :: cs =>
    if pat.isPrefixOf (c :: cs) then some 0 else (firstOccur pat cs).map (· + 1)

/-- Result of a fallible computation: `ok`, a recoverable `WakeBotError`
(`err`), or a process abort through `panic!`/`expect`/`unwrap` (`panic`). -/
inductive Outcome (α : Type) where
  | ok (a : α)
  | err (msg : String)
  | panic (msg : String)
deriving DecidableEq, Repr

/-- The `RollResult` struct of `rolls_v2.rs`. -/
structure RollResult where
  original_text : List Char
  non_roll_portion : List Char
  rolls : List Int
  roll_total : Nat
  has_critical_success : Bool
  has_critical_failure : Bool
  sorting_priority : Nat
deriving DecidableEq, Repr

/-- The `RollStringResult` struct of `rolls_v2.rs`. -/
structure RollStringResult where
  original_text : List Char
  converted_text : List Char
  rolls : List RollResult
deriving DecidableEq, Repr

/-- Model of `rand::thread_rng().gen_range(1..=m)` against an explicit trace of
generated values.  `m = 0` is an empty range and panics (as in Rust); an
exhausted or out-of-range trace is a modelling artifact that cannot arise from
a genuine generator run. -/
def genRange (m : Nat) (stream : List Nat) : Outcome (Nat × List Nat) :=
  if m = 0 then .panic "cannot sample empty range"
  else
    match stream with
    | [] => .panic "rng trace exhausted"
    | v :: rest => if 1 ≤ v ∧ v ≤ m then .ok (v, rest) else .panic "rng trace out of range"

/-- The rolling loop of `interpret_rolls` (lines 137–144): `count` successive
`gen_range(1..=dice_max)` draws, each converted to `i32` by a `try_into` that
panics when the value exceeds `i32::MAX`. -/
def rollDice : Nat → Nat → List Nat → Outcome (List Int × List Nat)
  | 0, _, stream => .ok ([], stream)
  | n + 1, m, stream =>
    match genRange m stream with
    | .ok (v, stream1) =>
      if v ≤ I32_MAX then
        match rollDice n m stream1 with
        | .ok (vs, stream2) => .ok ((v : Int) :: vs, stream2)
        | .err e => .err e
        | .panic p => .panic p
      else .panic "Negative value generated by roll"
    | .err e => .err e
    | .panic p => .panic p

/-- Model of `results.iter().enumerate()` on a list, starting at index `n`. -/
def idxed : Nat → List Int → List (Nat × Int)
  | _, [] => []
  | n, v :: vs => (n, v) :: idxed (n + 1) vs

/-- Comparison used by `removed_indices.sort_unstable_by(|a, b| a.1.cmp(b.1))`:
order enumerated pairs by rolled value.  (Rust's unstable sort leaves the
relative order of equal values unspecified; the model fixes one admissible
outcome by sorting stably.) -/
def pairLe (a b : Nat × Int) : Prop := a.2 ≤ b.2

instance : DecidableRel pairLe := fun a b => inferInstanceAs (Decidable (a.2 ≤ b.2))

instance : IsTotal (Nat × Int) pairLe := ⟨fun a b => le_total a.2 b.2⟩

instance : IsTrans (Nat × Int) pairLe := ⟨fun _ _ _ h h2 => le_trans h h2⟩

/-- Model of `results[i] = -results[i]` (index out of range cannot occur; the model
makes it a no-op). -/
def negAt (res : List Int) (i : Nat) : List Int := res.set i (-(res.getD i 0))

/-- The negation loop `for (i, _) in removed_indices { results[i] = -results[i] }`. -/
def applyRemoval (removed : List (Nat × Int)) (res : List Int) : List Int :=
  removed.foldl (fun r p => negAt r p.1) res

/-- The keep-selector application of `interpret_rolls` (lines 145–171): parse
the keep count as `i32` (panicking on overflow, per `expect`), enumerate and
sort the rolled values, reverse for `kl`, and negate the values at the first
`max(0, len - keepCount)` positions of that ordering. -/
def keepOrdered (mode : KeepMode) (results : List Int) : List (Nat × Int) :=
  if mode = KeepMode.kl then (List.insertionSort pairLe (idxed 0 results)).reverse
  else List.insertionSort pairLe (idxed 0 results)

/-- The keep-selector application proper: parse the keep count (`expect`
panics on overflow), then negate the first `max(0, len - keepCount)` entries
of the sorted ordering. -/
def keepApply (kp : Option (KeepMode × List Char)) (results : List Int) : Outcome (List Int) :=
  match kp with
  | none => .ok results
  | some (mode, kcStr) =>
    match parseI32 kcStr with
    | none => .panic "Invalid keep count passed."
    | some kc =>
      .ok (applyRemoval ((keepOrdered mode results).take (results.length - kc)) results)

/-- The `roll_total` fold (lines 174–180): sum the non-negative entries into a
`u32` accumulator, whose addition wraps modulo `2^32`. -/
def rollTotalFold (results : List Int) : Nat :=
  results.foldl (fun a b => if 0 ≤ b then (a + b.toNat) % U32_MOD else a) 0

/-- The exact (unbounded) sum of the kept entries, for comparison with the
wrapped `roll_total`. -/
def keptSum (results : List Int) : Nat :=
  ((results.filter (fun v => decide (0 ≤ v))).map Int.toNat).sum

/-- Decimal digits of a `Nat` (Rust `u32::to_string`). -/
def natChars (n : Nat) : List Char := Nat.toDigits 10 n

/-- The parsed dice count: capture group 2 via `parse::<usize>`, defaulting to
1 when the parse fails (empty string, or overflow). -/
def diceCountOf (m : RollMatch) : Nat := (parseUsize m.parts.countStr).getD 1

/-- Output of one iteration of the roll loop: the new `RollResult`, the
rewritten working text, and the remaining rng trace. -/
structure StepOut where
  rr : RollResult
  newText : List Char
  stream : List Nat
deriving DecidableEq, Repr

/-- One iteration of the roll loop of `interpret_rolls` (lines 117–208) on the
working text `s` with leftmost match `m`: quantity check, sides parse
(`expect` panics on overflow), rolling, keep application, critical flags on
the post-negation values, wrapped total, `sorting_priority` from
`converted_text.find(group 0)` plus `input_offset`, and replacement of the
group-1 span by the decimal digits of the total. -/
def resolveMatch (inputOffset : Nat) (s : List Char) (m : RollMatch) (stream : List Nat) :
    Outcome StepOut :=
  if diceCountOf m > MAX_QUANTITY then .err "Max number of dice is 1000"
  else
    match parseUsize m.parts.sidesStr with
    | none => .panic "Error while parsing dice max."
    | some diceMax =>
      match rollDice (diceCountOf m) diceMax stream with
      | .ok (results0, stream1) =>
        match keepApply m.parts.keep results0 with
        | .ok results =>
          match firstOccur m.g0 s with
          | some pos =>
            .ok ⟨⟨m.g1, m.parts.suffix, results, rollTotalFold results,
                  decide (diceMax = 20) && results.any (fun v => v == 20),
                  decide (diceMax = 20) && results.any (fun v => v == 1),
                  pos + inputOffset⟩,
                 s.take m.pre.length ++ natChars (rollTotalFold results)
                   ++ s.drop (m.pre.length + m.g1.length),
                 stream1⟩
          | none => .panic "called Option::unwrap on a None value"
        | .err e => .err e
        | .panic p => .panic p
      | .err e => .err e
      | .panic p => .panic p

/-- The roll loop: resolve leftmost matches until none remains.  `fuel` bounds
the number of iterations (each replacement strictly shortens the text, so any
fuel beyond the text length is sufficient); exhaustion is a modelling
artifact. -/
def rollLoop : Nat → Nat → List Char → List RollResult → List Nat →
    Outcome (List Char × List RollResult × List Nat)
  | 0, _, _, _, _ => .panic "model fuel exhausted"
  | f + 1, off, s, acc, stream =>
    match rollFind s with
    | none => .ok (s, acc, stream)
    | some m =>
      match resolveMatch off s m stream with
      | .ok o => rollLoop f off o.newText (acc ++ [o.rr]) o.stream
      | .err e => .err e
      | .panic p => .panic p

/-- Strip a leading `!` (legacy behaviour, lines 76–80). -/
def stripBang (l : List Char) : List Char :=
  match l with
  | c :: r => if c = '!' then r else c :: r
  | [] => []

/-- Display-order comparison: `a.sorting_priority.cmp(&b.sorting_priority)`. -/
def prioLe (a b : RollResult) : Prop := a.sorting_priority ≤ b.sorting_priority

instance : DecidableRel prioLe := fun a b =>
  inferInstanceAs (Decidable (a.sorting_priority ≤ b.sorting_priority))

instance : IsTotal RollResult prioLe := ⟨fun a b => Nat.le_total _ _⟩

instance : IsTrans RollResult prioLe := ⟨fun _ _ _ h h2 => Nat.le_trans h h2⟩

/-- The final stable sort `result.rolls.sort_by(...)` (lines 214–216). -/
def sortRolls (l : List RollResult) : List RollResult := List.insertionSort prioLe l

mutual

/-- Model of `interpret_rolls` of `rolls_v2.rs`: strip the leading `!`, resolve
parenthesized groups recursively, then resolve dice terms left to right, and
sort the collected `RollResult`s by `sorting_priority`.  `fuel` bounds the
recursion and loop depth (a modelling artifact; all theorems either supply
ample fuel or hypothesise an `ok` outcome). -/
def interpretFuel : Nat → List Char → Nat → List Nat → Outcome (RollStringResult × List Nat)
  | 0, _, _, _ => .panic "model fuel exhausted"
  | f + 1, input0, off, stream =>
    match parenLoop f (stripBang input0) stream with
    | .ok (t1, prolls, stream1) =>
      match rollLoop (t1.length + stream1.length + 2) off t1 [] stream1 with
      | .ok (t2, rolls2, stream2) =>
        .ok (⟨stripBang input0, t2, sortRolls (prolls ++ rolls2)⟩, stream2)
      | .err e => .err e
      | .panic p => .panic p
    | .err e => .err e
    | .panic p => .panic p

/-- The paren loop of `interpret_rolls` (lines 88–111): while `PAREN_REGEX`
matches, interpret the interior recursively (the `input_offset` of the
recursive call is the interior's start position) and splice the interior's
converted text over the whole parenthesized span.  A recursive error is
`unwrap`ped — i.e. it panics (line 97). -/
def parenLoop : Nat → List Char → List Nat → Outcome (List Char × List RollResult × List Nat)
  | 0, _, _ => .panic "model fuel exhausted"
  | f + 1, s, stream =>
    match parenFind s with
    | none => .ok (s, [], stream)
    | some (st, en) =>
      match interpretFuel f ((s.drop st).take (en - st)) st stream with
      | .ok (nres, stream1) =>
        match parenLoop f (s.take (st - 1) ++ nres.converted_text ++ s.drop (en + 1)) stream1 with
        | .ok (t2, rs, stream2) => .ok (t2, nres.rolls ++ rs, stream2)
        | .err e => .err e
        | .panic p => .panic p
      | .err e => .panic e
      | .panic p => .panic p

end

/-- Model of the escaping `replace` of `*` by an escaped `*` for the chat renderer. -/
def escStar (l : List Char) : List Char :=
  (l.map (fun c => if c = '*' then ['\\', '*'] else [c])).flatten

/-- Modelled from the spec: the external evaluator computes on `f64` values;
because every behaviour checked here involves exact (integer) arithmetic, the
model computes on exact unnormalized fractions instead.  (No gcd
normalization is performed, so every operation is kernel-computable.) -/
structure Frac where
  num : Int
  den : Nat
deriving DecidableEq, Repr

/-- Fraction addition (no normalization). -/
def Frac.add (a b : Frac) : Frac := ⟨a.num * b.den + b.num * a.den, a.den * b.den⟩

/-- Fraction subtraction (no normalization). -/
def Frac.sub (a b : Frac) : Frac := ⟨a.num * b.den - b.num * a.den, a.den * b.den⟩

/-- Fraction multiplication (no normalization). -/
def Frac.mul (a b : Frac) : Frac := ⟨a.num * b.num, a.den * b.den⟩

/-- Fraction division (no normalization; division by zero yields a
zero-denominator value, standing in for the f64 infinity). -/
def Frac.div (a b : Frac) : Frac :=
  if 0 ≤ b.num then ⟨a.num * b.den, a.den * b.num.toNat⟩
  else ⟨-(a.num * b.den), a.den * (-b.num).toNat⟩

/-- Tokens of the arithmetic evaluator. -/
inductive Tok where
  | num (q : Frac)
  | plus
  | minus
  | star
  | slash
  | lpar
  | rpar
deriving DecidableEq, Repr

/-- Modelled from the spec: the external `shunting` crate is a "standard infix
evaluator" for numbers, `+ - * /` and parentheses (§4.3); its source is not
part of this repository.  Tokenizer: spaces are skipped, numbers are digit
strings with an optional fractional part (exact rational value; the crate's
floating-point rounding is immaterial to every claim checked here). -/
def tokenizeF : Nat → List Char → Option (List Tok)
  | 0, _ => none
  | _ + 1, [] => some []
  | f + 1, c :: cs =>
    if c = ' ' then tokenizeF f cs
    else if c = '+' then (tokenizeF f cs).map (Tok.plus :: ·)
    else if c = '-' then (tokenizeF f cs).map (Tok.minus :: ·)
    else if c = '*' then (tokenizeF f cs).map (Tok.star :: ·)
    else if c = '/' then (tokenizeF f cs).map (Tok.slash :: ·)
    else if c = '(' then (tokenizeF f cs).map (Tok.lpar :: ·)
    else if c = ')' then (tokenizeF f cs).map (Tok.rpar :: ·)
    else if isDig c ∨ c = '.' then
      let p := digitRun (c :: cs)
      match p.2 with
      | c2 :: r2 =>
        if c2 = '.' then
          let q := digitRun r2
          if q.1 = [] then none
          else
            (tokenizeF f q.2).map
              (Tok.num ⟨digitsToNat p.1 * 10 ^ q.1.length + digitsToNat q.1,
                10 ^ q.1.length⟩ :: ·)
        else if p.1 = [] then none
        else (tokenizeF f (c2 :: r2)).map (Tok.num ⟨digitsToNat p.1, 1⟩ :: ·)
      | [] =>
        if p.1 = [] then none
        else (tokenizeF f []).map (Tok.num ⟨digitsToNat p.1, 1⟩ :: ·)
    else none

mutual

/-- Modelled from the spec: expression layer of the infix evaluator —
left-associative `+`/`-` over terms. -/
def parseExprF : Nat → List Tok → Option (Frac × List Tok)
  | 0, _ => none
  | f + 1, ts =>
    match parseTermF f ts with
    | some (q, rest) => parseExprLoop f q rest
    | none => none

/-- Modelled from the spec: fold further `+ term` / `- term` onto `acc`. -/
def parseExprLoop : Nat → Frac → List Tok → Option (Frac × List Tok)
  | 0, _, _ => none
  | f + 1, acc, ts =>
    match ts with
    | Tok.plus :: rest =>
      match parseTermF f rest with
      | some (q, rest2) => parseExprLoop f (acc.add q) rest2
      | none => none
    | Tok.minus :: rest =>
      match parseTermF f rest with
      | some (q, rest2) => parseExprLoop f (acc.sub q) rest2
      | none => none
    | _ => some (acc, ts)

/-- Modelled from the spec: term layer — left-associative `*`/`/` over
factors. -/
def parseTermF : Nat → List Tok → Option (Frac × List Tok)
  | 0, _ => none
  | f + 1, ts =>
    match parseFactorF f ts with
    | some (q, rest) => parseTermLoop f q rest
    | none => none

/-- Modelled from the spec: fold further `* factor` / `/ factor` onto `acc`. -/
def parseTermLoop : Nat → Frac → List Tok → Option (Frac × List Tok)
  | 0, _, _ => none
  | f + 1, acc, ts =>
    match ts with
    | Tok.star :: rest =>
      match parseFactorF f rest with
      | some (q, rest2) => parseTermLoop f (acc.mul q) rest2
      | none => none
    | Tok.slash :: rest =>
      match parseFactorF f rest with
      | some (q, rest2) => parseTermLoop f (acc.div q) rest2
      | none => none
    | _ => some (acc, ts)

/-- Modelled from the spec: factor layer — a number or a parenthesized
expression. -/
def parseFactorF : Nat → List Tok → Option (Frac × List Tok)
  | 0, _ => none
  | f + 1, ts =>
    match ts with
    | Tok.num q :: rest => some (q, rest)
    | Tok.lpar :: rest =>
      match parseExprF f rest with
      | some (q, Tok.rpar :: rest2) => some (q, rest2)
      | _ => none
    | _ => none

end

/-- Modelled from the spec: `ShuntingParser::parse_str` followed by
`MathContext::new().eval` — parse and evaluate an infix arithmetic string,
`none` on failure. -/
def evalArith (l : List Char) : Option Frac :=
  match tokenizeF (l.length + 1) l with
  | some ts =>
    match parseExprF (ts.length + 1) ts with
    | some (q, []) => some q
    | _ => none
  | none => none

/-- Decimal digits of an integer (Rust `i32` `Display`). -/
def intChars (v : Int) : List Char :=
  if v < 0 then '-' :: natChars (-v).toNat else natChars v.toNat

/-- Modelled from the spec: display of the evaluator's numeric result.  The
crate prints an `f64`; an integral value prints as its plain digits (the only
case exercised by the claims), a non-integral one in some fractional
notation. -/
def dispQ (q : Frac) : List Char :=
  if q.den = 1 then intChars q.num
  else if q.den ≠ 0 ∧ q.num % (q.den : Int) = 0 then intChars (q.num / q.den)
  else intChars q.num ++ '/' :: natChars q.den

/-- The rolled-values cell of a trace line (lines 235–244): a discarded
(negative) entry is struck through showing its positive face value; a kept
entry shows its digits (with `*` escaped — a no-op on digits). -/
def rollValsText (rolls : List Int) : List Char :=
  List.intercalate (strL ", ")
    (rolls.map (fun v =>
      if v < 0 then strL "~~" ++ natChars (-v).toNat ++ strL "~~"
      else escStar (intChars v)))

/-- The per-term trace line produced by `format_rolls_result_new` (lines
227–259): `original (v1, v2 -> total)suffix = subtotal` plus bold critical
markers, ending in a newline.  The subtotal is the evaluation of
`roll_total.to_string() + non_roll_portion`. -/
def termLineStr (rr : RollResult) : List Char :=
  rr.original_text ++ strL " (" ++ rollValsText rr.rolls ++ strL " -> "
    ++ natChars rr.roll_total ++ strL ")" ++ rr.non_roll_portion ++ strL " = "
    ++ dispQ ((evalArith (natChars rr.roll_total ++ rr.non_roll_portion)).getD ⟨0, 1⟩)
    ++ (if rr.has_critical_success then strL " - **CRITICAL SUCCESS!**" else [])
    ++ (if rr.has_critical_failure then strL " - **CRITICAL FAILURE!**" else [])
    ++ ['\n']

/-- One fold step of the trace rendering: the per-term expression is parsed and
evaluated with `unwrap` (a failure panics). -/
def termLine (rr : RollResult) : Outcome (List Char) :=
  match evalArith (natChars rr.roll_total ++ rr.non_roll_portion) with
  | some _ => .ok (termLineStr rr)
  | none => .panic "per-term expression failed to parse or evaluate"

/-- One step of the fold over `result.rolls` building the per-term lines. -/
def lineStep (acc : Outcome (List Char)) (rr : RollResult) : Outcome (List Char) :=
  match acc with
  | .ok a =>
    match termLine rr with
    | .ok b => .ok (a ++ b)
    | .err e => .err e
    | .panic p => .panic p
  | .err e => .err e
  | .panic p => .panic p

/-- The fold over `result.rolls` building the per-term lines (line 227). -/
def linesFold (rolls : List RollResult) : Outcome (List Char) :=
  rolls.foldl lineStep (.ok [])

/-- Model of `format_rolls_result_new` (lines 221–267): evaluate the flattened text
(`unwrap`), then emit the escaped original, the per-term lines, the escaped
flattened text when more than one roll is present, and the bolded total. -/
def formatRolls (r : RollStringResult) : Outcome (List Char) :=
  match evalArith r.converted_text with
  | none => .panic "full expression failed to parse or evaluate"
  | some fullQ =>
    match linesFold r.rolls with
    | .ok lines =>
      .ok (escStar r.original_text ++ '\n' :: lines
            ++ (if r.rolls.length > 1 then escStar r.converted_text ++ ['\n'] else [])
            ++ strL "**" ++ dispQ fullQ ++ strL "**")
    | .err e => .err e
    | .panic p => .panic p

/-- Modelled from the spec: the per-term trace line as the specification
words it — `original_text (v1, v2, ...) suffix = subtotal[ - CRITICAL
SUCCESS!][ - CRITICAL FAILURE!]` — for comparison with the line the code
actually renders. -/
def specTermLine (rr : RollResult) : List Char :=
  rr.original_text ++ strL " (" ++ rollValsText rr.rolls ++ strL ") "
    ++ rr.non_roll_portion ++ strL " = "
    ++ dispQ ((evalArith (natChars rr.roll_total ++ rr.non_roll_portion)).getD ⟨0, 1⟩)
    ++ (if rr.has_critical_success then strL " - CRITICAL SUCCESS!" else [])
    ++ (if rr.has_critical_failure then strL " - CRITICAL FAILURE!" else [])

/-! ### Structural soundness of the matchers -/

theorem digitRun_spec (l : List Char) : (digitRun l).1 ++ (digitRun l).2 = l := by
  induction l with
  | nil => rfl
  | cons c cs ih =>
    by_cases h : isDig c
    · simp only [digitRun, h, if_pos]
      simpa using ih
    · simp [digitRun, h]

theorem getLast?_dropLast_append {l : List Char} {a : Char} (h : l.getLast? = some a) :
    l.dropLast ++ a :: l.tail.drop (l.length - 1) = l.dropLast ++ [a] := by
  have : l.tail.drop (l.length - 1) = [] := by
    apply List.drop_eq_nil_of_le
    simp [List.length_tail]
  simp [this]

theorem keepParse_spec (l : List Char) : keepRender (keepParse l).1 ++ (keepParse l).2 = l := by
  unfold keepParse
  split
  case _ c0 c r =>
    by_cases hk : c0 = 'k'
    · subst hk
      simp only [if_pos rfl]
      by_cases h : isDig c
      · have := digitRun_spec (c :: r)
        simp [h, keepRender, KeepMode.chars, this]
      · simp only [h, Bool.false_eq_true, if_false]
        by_cases hh : c = 'h'
        · subst hh
          simp only [if_pos rfl]
          match r with
          | [] => simp [keepRender]
          | c2 :: r2 =>
            by_cases h2 : isDig c2
            · have := digitRun_spec (c2 :: r2)
              simp [h2, keepRender, KeepMode.chars, this]
            · simp [h2, keepRender]
        · simp only [hh, if_false]
          by_cases hl : c = 'l'
          · subst hl
            simp only [if_pos rfl]
            match r with
            | [] => simp [keepRender]
            | c2 :: r2 =>
              by_cases h2 : isDig c2
              · have := digitRun_spec (c2 :: r2)
                simp [h2, keepRender, KeepMode.chars, this]
              · simp [h2, keepRender]
          · simp [hl, keepRender]
    · simp [hk, keepRender]
  case _ => simp [keepRender]

theorem numParse_spec {l nm r : List Char} (h : numParse l = some (nm, r)) : nm ++ r = l := by
  have hsplit := digitRun_spec l
  unfold numParse at h
  split at h
  case _ heq =>
    split at h
    · exact Option.noConfusion h
    · cases h
      rw [heq] at hsplit
      simpa using hsplit
  case _ c r2 heq =>
    rw [heq] at hsplit
    split at h
    · cases h
      exact hsplit
    · split at h
      · split at h
        case _ lastd hlast =>
          cases h
          have hd : (digitRun l).1.dropLast ++ [lastd] = (digitRun l).1 :=
            List.dropLast_append_getLast? lastd hlast
          calc (digitRun l).1.dropLast ++ lastd :: (c :: r2)
              = ((digitRun l).1.dropLast ++ [lastd]) ++ (c :: r2) := by simp
            _ = (digitRun l).1 ++ (c :: r2) := by rw [hd]
            _ = l := hsplit
        case _ => exact Option.noConfusion h
      · split at h
        case _ hc =>
          subst hc
          split at h
          · exact Option.noConfusion h
          · have hsplit2 := digitRun_spec r2
            split at h
            case _ heq2 =>
              cases h
              rw [heq2] at hsplit2
              conv_rhs => rw [← hsplit, ← hsplit2]
              simp
            case _ c2 r3 heq2 =>
              rw [heq2] at hsplit2
              split at h
              · cases h
                conv_rhs => rw [← hsplit, ← hsplit2]
                simp
              · split at h
                · split at h
                  case _ laste hlast =>
                    cases h
                    have hd : (digitRun r2).1.dropLast ++ [laste] = (digitRun r2).1 :=
                      List.dropLast_append_getLast? laste hlast
                    conv_rhs => rw [← hsplit, ← hsplit2, ← hd]
                    simp
                  case _ => exact Option.noConfusion h
                · exact Option.noConfusion h
        case _ => exact Option.noConfusion h

theorem optSpace_spec (l : List Char) : (optSpace l).1 ++ (optSpace l).2 = l := by
  match l with
  | [] => rfl
  | c :: r =>
    by_cases h : c = ' '
    · simp [optSpace, h]
    · simp [optSpace, h]

theorem suffixUnit_spec {l u r : List Char} (h : suffixUnit l = some (u, r)) : u ++ r = l := by
  unfold suffixUnit at h
  split at h
  case _ c l2 heq =>
    split at h
    · split at h
      · rename_i nm r2 hnum
        cases h
        have h1 := optSpace_spec l
        have h2 := optSpace_spec l2
        have h3 := numParse_spec hnum
        conv_rhs => rw [← h1, heq, ← h2, ← h3]
        simp
      · exact Option.noConfusion h
    · exact Option.noConfusion h
  case _ => exact Option.noConfusion h

theorem suffixRunF_spec : ∀ (f : Nat) (l : List Char),
    (suffixRunF f l).1 ++ (suffixRunF f l).2 = l := by
  intro f
  induction f with
  | zero => intro l; rfl
  | succ f ih =>
    intro l
    unfold suffixRunF
    split
    case _ u r heq =>
      have h1 := suffixUnit_spec heq
      have h2 := ih r
      simpa [← h1] using congrArg (u ++ ·) h2
    case _ => rfl

theorem matchAt_spec {l : List Char} {p : MatchParts} (h : matchAt l = some p) :
    p.countStr ++ 'd' :: p.sidesStr ++ keepRender p.keep ++ p.suffix ++ p.rest = l := by
  unfold matchAt at h
  split at h
  case _ c r2 heq =>
    split at h
    case isTrue hc =>
      subst hc
      split at h
      · exact Option.noConfusion h
      · cases h
        have h1 := digitRun_spec l
        have h2 := digitRun_spec r2
        have h3 := keepParse_spec (digitRun r2).2
        have h4 := suffixRunF_spec ((keepParse (digitRun r2).2).2.length + 1)
          (keepParse (digitRun r2).2).2
        rw [heq] at h1
        conv_rhs => rw [← h1, ← h2, ← h3, ← h4]
        simp
    case isFalse hc => exact Option.noConfusion h
  case _ => exact Option.noConfusion h

theorem rollFindAux_spec : ∀ (l pre : List Char) {m : RollMatch},
    rollFindAux pre l = some m →
    m.pre ++ m.g1 ++ m.parts.suffix ++ m.parts.rest = pre.reverse ++ l := by
  intro l
  induction l with
  | nil => intro pre m h; exact absurd h (by simp [rollFindAux])
  | cons c cs ih =>
    intro pre m h
    unfold rollFindAux at h
    split at h
    case _ parts heq =>
      cases h
      have hm := matchAt_spec heq
      conv_rhs => rw [← hm]
      simp [RollMatch.g1, List.append_assoc]
    case _ =>
      have := ih (c :: pre) h
      simpa using this

theorem rollFind_spec {s : List Char} {m : RollMatch} (h : rollFind s = some m) :
    s = m.pre ++ m.g1 ++ m.parts.suffix ++ m.parts.rest := by
  have := rollFindAux_spec s [] h
  simpa using this.symm

/-! ### Properties of the dice-rolling core -/

theorem rollDice_ok : ∀ {n m : Nat} {stream : List Nat} {vs : List Int} {stream2 : List Nat},
    rollDice n m stream = .ok (vs, stream2) →
    vs.length = n ∧ ∀ v ∈ vs, 1 ≤ v ∧ v ≤ (m : Int) := by
  intro n
  induction n with
  | zero =>
    intro m stream vs stream2 h
    cases h
    simp
  | succ n ih =>
    intro m stream vs stream2 h
    unfold rollDice at h
    split at h
    case _ v stream1 hgen =>
      split at h
      case isTrue hI =>
        split at h
        case _ vs2 stream3 hrec =>
          cases h
          obtain ⟨hlen, hmem⟩ := ih hrec
          have hv : 1 ≤ v ∧ v ≤ m := by
            unfold genRange at hgen
            split at hgen
            · exact Outcome.noConfusion hgen
            · split at hgen
              case _ => exact Outcome.noConfusion hgen
              case _ =>
                split at hgen
                case isTrue hin =>
                  cases hgen
                  exact hin
                case isFalse => exact Outcome.noConfusion hgen
          refine ⟨by simp [hlen], ?_⟩
          intro x hx
          rcases List.mem_cons.mp hx with rfl | hx2
          · exact ⟨by exact_mod_cast hv.1, by exact_mod_cast hv.2⟩
          · exact hmem x hx2
        case _ => exact Outcome.noConfusion h
        case _ => exact Outcome.noConfusion h
      case isFalse => exact Outcome.noConfusion h
    case _ => exact Outcome.noConfusion h
    case _ => exact Outcome.noConfusion h

/-! ### Enumeration and the negation loop -/

theorem idxed_map_snd : ∀ (n : Nat) (l : List Int), (idxed n l).map Prod.snd = l := by
  intro n l
  induction l generalizing n with
  | nil => rfl
  | cons v vs ih => simp [idxed, ih]

theorem idxed_map_fst : ∀ (n : Nat) (l : List Int),
    (idxed n l).map Prod.fst = List.range' n l.length := by
  intro n l
  induction l generalizing n with
  | nil => rfl
  | cons v vs ih => simp [idxed, ih, List.range'_succ]

theorem idxed_get? : ∀ (n : Nat) (l : List Int) (j : Nat),
    (idxed n l).get? j = (l.get? j).map (fun v => (n + j, v)) := by
  intro n l
  induction l generalizing n with
  | nil => intro j; simp [idxed]
  | cons v vs ih =>
    intro j
    match j with
    | 0 => simp [idxed]
    | j + 1 =>
      have harith : (n + 1) + j = n + (j + 1) := by omega
      show (idxed (n + 1) vs).get? j = _
      rw [ih (n + 1) j, harith]
      rfl

theorem mem_idxed_snd {n : Nat} {l : List Int} {p : Nat × Int} (hp : p ∈ idxed n l) :
    p.2 ∈ l := by
  have := List.mem_map_of_mem Prod.snd hp
  rwa [idxed_map_snd] at this

theorem idxed_nodup_fst (n : Nat) (l : List Int) : ((idxed n l).map Prod.fst).Nodup := by
  rw [idxed_map_fst]
  exact List.nodup_range' _ _

theorem idxed_length (n : Nat) (l : List Int) : (idxed n l).length = l.length := by
  have := congrArg List.length (idxed_map_snd n l)
  simpa using this

theorem negAt_length (res : List Int) (i : Nat) : (negAt res i).length = res.length := by
  simp [negAt]

theorem negAt_get? (res : List Int) (i j : Nat) :
    (negAt res i).get? j = if i = j then (res.get? j).map (fun v => -v) else res.get? j := by
  unfold negAt
  by_cases hij : i = j
  · subst hij
    rw [List.get?_set, if_pos rfl]
    cases hv : res.get? i with
    | none => simp [hv]
    | some v =>
      have hv2 : res[i]? = some v := by
        rw [← List.get?_eq_getElem?]
        exact hv
      simp [hv, List.getD_eq_getElem?_getD, hv2]
  · simp [List.get?_set, hij]

theorem applyRemoval_length : ∀ (removed : List (Nat × Int)) (res : List Int),
    (applyRemoval removed res).length = res.length := by
  intro removed
  induction removed with
  | nil => intro res; rfl
  | cons p rest ih =>
    intro res
    show (applyRemoval rest (negAt res p.1)).length = _
    rw [ih, negAt_length]

theorem applyRemoval_get? : ∀ (removed : List (Nat × Int)) (res : List Int) (j : Nat),
    (removed.map Prod.fst).Nodup →
    (applyRemoval removed res).get? j =
      if removed.any (fun q => q.1 == j) then (res.get? j).map (fun v => -v)
      else res.get? j := by
  intro removed
  induction removed with
  | nil =>
    intro res j _
    simp [applyRemoval]
  | cons p rest ih =>
    intro res j hnd
    have hnd2 : (rest.map Prod.fst).Nodup := (List.nodup_cons.mp (by simpa using hnd)).2
    have hp : p.1 ∉ rest.map Prod.fst := (List.nodup_cons.mp (by simpa using hnd)).1
    show (applyRemoval rest (negAt res p.1)).get? j = _
    rw [ih (negAt res p.1) j hnd2]
    by_cases hj : p.1 = j
    · subst hj
      have hrest : rest.any (fun q => q.1 == p.1) = false := by
        rw [List.any_eq_false]
        intro q hq
        simp only [beq_iff_eq]
        intro hEq
        exact hp (List.mem_map.mpr ⟨q, hq, hEq⟩)
      have hcons : (p :: rest).any (fun q => q.1 == p.1) = true := by
        simp [List.any_cons]
      rw [hrest, hcons, if_neg (by simp), if_pos rfl, negAt_get?, if_pos rfl]
    · have hcons : (p :: rest).any (fun q => q.1 == j) = rest.any (fun q => q.1 == j) := by
        simp [List.any_cons, hj]
      rw [hcons, negAt_get?, if_neg hj]

theorem applyRemoval_eq_map (removed : List (Nat × Int)) (res : List Int)
    (hnd : (removed.map Prod.fst).Nodup) :
    applyRemoval removed res =
      (idxed 0 res).map (fun p => if removed.any (fun q => q.1 == p.1) then -p.2 else p.2) := by
  apply List.ext_get?
  intro j
  rw [applyRemoval_get? removed res j hnd, List.get?_map, idxed_get?]
  cases hv : res.get? j with
  | none => simp
  | some v =>
    by_cases hc : removed.any (fun q => q.1 == j) = true
    · simp [hc]
    · simp [hc]

/-! ### The wrapped total and sign counts -/

theorem keptSum_cons (v : Int) (vs : List Int) :
    keptSum (v :: vs) = (if 0 ≤ v then v.toNat else 0) + keptSum vs := by
  by_cases hv : (0 : Int) ≤ v <;> simp [keptSum, hv]

theorem rollTotalFold_general : ∀ (l : List Int) (a : Nat), a < U32_MOD →
    l.foldl (fun a b => if 0 ≤ b then (a + b.toNat) % U32_MOD else a) a
      = (a + keptSum l) % U32_MOD := by
  intro l
  induction l with
  | nil =>
    intro a ha
    simp [keptSum, Nat.mod_eq_of_lt ha]
  | cons v vs ih =>
    intro a ha
    by_cases hv : (0 : Int) ≤ v
    · have h1 : (a + v.toNat) % U32_MOD < U32_MOD := Nat.mod_lt _ (by norm_num [U32_MOD])
      simp only [List.foldl_cons, if_pos hv]
      rw [ih _ h1, Nat.mod_add_mod, keptSum_cons, if_pos hv, Nat.add_assoc]
    · simp only [List.foldl_cons, if_neg hv]
      rw [ih a ha, keptSum_cons, if_neg hv, Nat.zero_add]

theorem rollTotalFold_eq (l : List Int) : rollTotalFold l = keptSum l % U32_MOD := by
  have := rollTotalFold_general l 0 (by norm_num [U32_MOD])
  simpa [rollTotalFold] using this

theorem filter_sign_count (l : List Int) :
    (l.filter (fun v => decide (v < 0))).length
      + (l.filter (fun v => decide (0 ≤ v))).length = l.length := by
  induction l with
  | nil => rfl
  | cons v vs ih =>
    by_cases hv : (0 : Int) ≤ v
    · have hnlt : ¬(v < 0) := not_lt.mpr hv
      simp [List.filter_cons, hv, hnlt]
      omega
    · have hlt : v < 0 := lt_of_not_ge hv
      simp [List.filter_cons, hv, hlt, not_le.mpr hlt]
      omega

theorem keepApply_length {kp : Option (KeepMode × List Char)} {results out : List Int}
    (h : keepApply kp results = .ok out) : out.length = results.length := by
  unfold keepApply at h
  split at h
  · cases h
    rfl
  case _ mode kcStr =>
    split at h
    · exact Outcome.noConfusion h
    · cases h
      exact applyRemoval_length _ _

/-! ### Inversion principles for the interpreter -/

theorem resolveMatch_ok {off : Nat} {s : List Char} {m : RollMatch} {stream : List Nat}
    {o : StepOut} (h : resolveMatch off s m stream = .ok o) :
    ∃ dmax results0 stream1 results pos,
      diceCountOf m ≤ MAX_QUANTITY ∧
      parseUsize m.parts.sidesStr = some dmax ∧
      rollDice (diceCountOf m) dmax stream = .ok (results0, stream1) ∧
      keepApply m.parts.keep results0 = .ok results ∧
      firstOccur m.g0 s = some pos ∧
      o.rr = ⟨m.g1, m.parts.suffix, results, rollTotalFold results,
              decide (dmax = 20) && results.any (fun v => v == 20),
              decide (dmax = 20) && results.any (fun v => v == 1),
              pos + off⟩ ∧
      o.newText = s.take m.pre.length ++ natChars (rollTotalFold results)
        ++ s.drop (m.pre.length + m.g1.length) ∧
      o.stream = stream1 := by
  unfold resolveMatch at h
  split at h
  · exact Outcome.noConfusion h
  case isFalse hq =>
    split at h
    case _ => exact Outcome.noConfusion h
    case _ dmax hside =>
      split at h
      case _ results0 stream1 hroll =>
        split at h
        case _ results hkeep =>
          split at h
          case _ pos hpos =>
            cases h
            exact ⟨dmax, results0, stream1, results, pos, Nat.le_of_not_lt hq,
              hside, hroll, hkeep, hpos, rfl, rfl, rfl⟩
          case _ => exact Outcome.noConfusion h
        case _ => exact Outcome.noConfusion h
        case _ => exact Outcome.noConfusion h
      case _ => exact Outcome.noConfusion h
      case _ => exact Outcome.noConfusion h

theorem parenLoop_ok_none : ∀ (f : Nat) {s : List Char} {stream : List Nat}
    {t : List Char} {rs : List RollResult} {stream2 : List Nat},
    parenLoop f s stream = .ok (t, rs, stream2) → parenFind t = none := by
  intro f
  induction f with
  | zero =>
    intro s stream t rs stream2 h
    exact Outcome.noConfusion h
  | succ f ih =>
    intro s stream t rs stream2 h
    unfold parenLoop at h
    split at h
    case _ hfind =>
      cases h
      exact hfind
    case _ st en hfind =>
      split at h
      case _ nres stream1 hrec =>
        split at h
        case _ t2 rs2 stream3 hloop =>
          cases h
          exact ih hloop
        case _ => exact Outcome.noConfusion h
        case _ => exact Outcome.noConfusion h
      case _ => exact Outcome.noConfusion h
      case _ => exact Outcome.noConfusion h

theorem interpret_ok_rolls : ∀ (f : Nat) {input : List Char} {off : Nat} {stream : List Nat}
    {r : RollStringResult} {stream2 : List Nat},
    interpretFuel f input off stream = .ok (r, stream2) → ∃ l, r.rolls = sortRolls l := by
  intro f
  match f with
  | 0 =>
    intro input off stream r stream2 h
    exact Outcome.noConfusion h
  | f + 1 =>
    intro input off stream r stream2 h
    unfold interpretFuel at h
    split at h
    case _ t1 prolls stream1 hp =>
      split at h
      case _ t2 rolls2 stream3 hr =>
        cases h
        exact ⟨prolls ++ rolls2, rfl⟩
      case _ => exact Outcome.noConfusion h
      case _ => exact Outcome.noConfusion h
    case _ => exact Outcome.noConfusion h
    case _ => exact Outcome.noConfusion h

/-! ### Digits contain no markup characters -/

theorem digitChar_no_star : ∀ d : Nat, d < 10 → Nat.digitChar d ≠ '*' := by decide

theorem toDigitsCore_no_star : ∀ (f n : Nat) (acc : List Char),
    (∀ c ∈ acc, c ≠ '*') → ∀ c ∈ Nat.toDigitsCore 10 f n acc, c ≠ '*' := by
  intro f
  induction f with
  | zero =>
    intro n acc hacc c hc
    exact hacc c hc
  | succ f ih =>
    intro n acc hacc c hc
    have hd : Nat.digitChar (n % 10) ≠ '*' := digitChar_no_star _ (Nat.mod_lt _ (by norm_num))
    have hacc2 : ∀ x ∈ Nat.digitChar (n % 10) :: acc, x ≠ '*' := by
      intro x hx
      rcases List.mem_cons.mp hx with rfl | hx2
      · exact hd
      · exact hacc x hx2
    rw [Nat.toDigitsCore] at hc
    split at hc
    · exact hacc2 c hc
    · exact ih _ _ hacc2 c hc

theorem natChars_no_star (n : Nat) : ∀ c ∈ natChars n, c ≠ '*' := by
  unfold natChars Nat.toDigits
  exact toDigitsCore_no_star _ _ [] (by simp)

theorem escStar_eq_self {l : List Char} (h : ∀ c ∈ l, c ≠ '*') : escStar l = l := by
  induction l with
  | nil => rfl
  | cons c cs ih =>
    have hc := h c (by simp)
    have ih2 := ih (fun x hx => h x (by simp [hx]))
    unfold escStar at ih2 ⊢
    simp only [List.map_cons, List.flatten_cons, if_neg hc]
    rw [ih2]
    rfl

theorem escStar_natChars (n : Nat) : escStar (natChars n) = natChars n :=
  escStar_eq_self (natChars_no_star n)

/-! ### The trace-line fold -/

theorem termLine_ok {rr : RollResult}
    (h : (evalArith (natChars rr.roll_total ++ rr.non_roll_portion)).isSome) :
    termLine rr = .ok (termLineStr rr) := by
  unfold termLine
  cases hv : evalArith (natChars rr.roll_total ++ rr.non_roll_portion) with
  | some q => rfl
  | none =>
    rw [hv] at h
    simp at h

theorem linesFold_general : ∀ (rolls : List RollResult) (a : List Char),
    (∀ rr ∈ rolls, (evalArith (natChars rr.roll_total ++ rr.non_roll_portion)).isSome) →
    rolls.foldl lineStep (.ok a) = .ok (a ++ (rolls.map termLineStr).flatten) := by
  intro rolls
  induction rolls with
  | nil =>
    intro a _
    simp
  | cons rr rest ih =>
    intro a hall
    have h1 : termLine rr = .ok (termLineStr rr) := termLine_ok (hall rr (by simp))
    show List.foldl lineStep (lineStep (.ok a) rr) rest = _
    have hstep : lineStep (.ok a) rr = .ok (a ++ termLineStr rr) := by
      unfold lineStep
      rw [h1]
    rw [hstep, ih _ (fun x hx => hall x (by simp [hx]))]
    simp

theorem linesFold_eq {rolls : List RollResult}
    (h : ∀ rr ∈ rolls, (evalArith (natChars rr.roll_total ++ rr.non_roll_portion)).isSome) :
    linesFold rolls = .ok ((rolls.map termLineStr).flatten) := by
  unfold linesFold
  rw [linesFold_general rolls [] h]
  rfl

/-! ### The keep selector: discarded entries are exactly one end of the sorted order -/

theorem keepOrdered_perm (mode : KeepMode) (results : List Int) :
    keepOrdered mode results ~ idxed 0 results := by
  unfold keepOrdered
  split
  · exact (List.reverse_perm _).trans (List.perm_insertionSort _ _)
  · exact List.perm_insertionSort _ _

theorem keepOrdered_nodup_fst (mode : KeepMode) (results : List Int) :
    ((keepOrdered mode results).map Prod.fst).Nodup := by
  have hperm := (keepOrdered_perm mode results).map Prod.fst
  exact hperm.nodup_iff.mpr (idxed_nodup_fst 0 results)

theorem keepOrdered_mem {mode : KeepMode} {results : List Int} {p : Nat × Int}
    (hp : p ∈ keepOrdered mode results) : p.2 ∈ results :=
  mem_idxed_snd ((keepOrdered_perm mode results).mem_iff.mp hp)

theorem keepOrdered_map_snd_perm (mode : KeepMode) (results : List Int) :
    (keepOrdered mode results).map Prod.snd ~ results := by
  have := (keepOrdered_perm mode results).map Prod.snd
  rwa [idxed_map_snd] at this

theorem keepOrdered_length (mode : KeepMode) (results : List Int) :
    (keepOrdered mode results).length = results.length := by
  rw [(keepOrdered_perm mode results).length_eq, idxed_length]

theorem keepOrdered_pairwise_le {mode : KeepMode} (results : List Int)
    (h : mode ≠ KeepMode.kl) :
    List.Pairwise pairLe (keepOrdered mode results) := by
  unfold keepOrdered
  rw [if_neg h]
  exact List.sorted_insertionSort pairLe _

theorem keepOrdered_pairwise_ge (results : List Int) :
    List.Pairwise (fun a b => pairLe b a) (keepOrdered KeepMode.kl results) := by
  unfold keepOrdered
  rw [if_pos rfl, List.pairwise_reverse]
  exact List.sorted_insertionSort pairLe _

theorem pairwise_take_drop {α : Type} {R : α → α → Prop} {l : List α}
    (h : List.Pairwise R l) (n : Nat) :
    ∀ a ∈ l.take n, ∀ b ∈ l.drop n, R a b := by
  rw [← List.take_append_drop n l] at h
  exact (List.pairwise_append.mp h).2.2

theorem take_drop_fst_ne {l : List (Nat × Int)} (h : (l.map Prod.fst).Nodup) (n : Nat)
    {p q : Nat × Int} (hp : p ∈ l.take n) (hq : q ∈ l.drop n) : p.1 ≠ q.1 := by
  rw [← List.take_append_drop n l, List.map_append] at h
  have hdisj := List.disjoint_of_nodup_append h
  intro hEq
  exact hdisj (List.mem_map_of_mem Prod.fst hp) (hEq ▸ List.mem_map_of_mem Prod.fst hq)

theorem applyRemoval_perm_parts (mode : KeepMode) (results : List Int) (dc : Nat) :
    applyRemoval ((keepOrdered mode results).take dc) results
      ~ ((keepOrdered mode results).take dc).map (fun p => -p.2)
        ++ ((keepOrdered mode results).drop dc).map (fun p => p.2) := by
  have hnd : ((keepOrdered mode results).map Prod.fst).Nodup := keepOrdered_nodup_fst mode results
  have hndr : (((keepOrdered mode results).take dc).map Prod.fst).Nodup := by
    rw [List.map_take]
    exact ((List.take_sublist dc _).nodup hnd)
  rw [applyRemoval_eq_map _ _ hndr]
  refine ((keepOrdered_perm mode results).symm.map _).trans ?_
  have h1 : ∀ p ∈ (keepOrdered mode results).take dc,
      (if ((keepOrdered mode results).take dc).any (fun q => q.1 == p.1) then -p.2 else p.2)
        = -p.2 := by
    intro p hp
    rw [if_pos (List.any_eq_true.mpr ⟨p, hp, by simp⟩)]
  have h2 : ∀ p ∈ (keepOrdered mode results).drop dc,
      (if ((keepOrdered mode results).take dc).any (fun q => q.1 == p.1) then -p.2 else p.2)
        = p.2 := by
    intro p hp
    rw [if_neg]
    intro hany
    obtain ⟨q, hq, hbeq⟩ := List.any_eq_true.mp hany
    exact take_drop_fst_ne hnd dc hq hp (by simpa using hbeq)
  have hsplitmap : ∀ F : Nat × Int → Int,
      (keepOrdered mode results).map F
        = ((keepOrdered mode results).take dc).map F
          ++ ((keepOrdered mode results).drop dc).map F := by
    intro F
    rw [← List.map_append, List.take_append_drop]
  rw [hsplitmap]
  rw [List.map_congr_left h1, List.map_congr_left h2]

theorem keepApply_core {mode : KeepMode} {kcStr : List Char} {kc : Nat} {results out : List Int}
    (hparse : parseI32 kcStr = some kc)
    (hok : keepApply (some (mode, kcStr)) results = .ok out)
    (hpos : ∀ v ∈ results, (1 : Int) ≤ v) :
    ((out.filter (fun v => decide (v < 0))).map (fun v => -v))
        ++ out.filter (fun v => decide (0 ≤ v)) ~ results
    ∧ (out.filter (fun v => decide (v < 0))).length = results.length - kc
    ∧ (out.filter (fun v => decide (0 ≤ v))).length = results.length - (results.length - kc)
    ∧ (mode ≠ KeepMode.kl →
        ∀ d ∈ (out.filter (fun v => decide (v < 0))).map (fun v => -v),
        ∀ k ∈ out.filter (fun v => decide (0 ≤ v)), d ≤ k)
    ∧ (mode = KeepMode.kl →
        ∀ d ∈ (out.filter (fun v => decide (v < 0))).map (fun v => -v),
        ∀ k ∈ out.filter (fun v => decide (0 ≤ v)), k ≤ d)
    ∧ (results.length ≤ kc → out = results) := by
  unfold keepApply at hok
  dsimp only at hok
  rw [hparse] at hok
  dsimp only at hok
  cases hok
  have hA : ∀ x ∈ ((keepOrdered mode results).take (results.length - kc)).map
      (fun p => -p.2), x < 0 := by
    intro x hx
    obtain ⟨p, hp, rfl⟩ := List.mem_map.mp hx
    have := hpos p.2 (keepOrdered_mem (List.mem_of_mem_take hp))
    omega
  have hB : ∀ x ∈ ((keepOrdered mode results).drop (results.length - kc)).map
      (fun p => p.2), (0 : Int) ≤ x := by
    intro x hx
    obtain ⟨p, hp, rfl⟩ := List.mem_map.mp hx
    have := hpos p.2 (keepOrdered_mem (List.mem_of_mem_drop hp))
    omega
  have hsplit := applyRemoval_perm_parts mode results (results.length - kc)
  have hfneg : (applyRemoval ((keepOrdered mode results).take (results.length - kc))
        results).filter (fun v => decide (v < 0))
      ~ ((keepOrdered mode results).take (results.length - kc)).map (fun p => -p.2) := by
    refine (hsplit.filter _).trans ?_
    rw [List.filter_append]
    rw [List.filter_eq_self.mpr (fun a ha => by simpa using hA a ha)]
    rw [List.filter_eq_nil_iff.mpr (fun a ha => by simpa using not_lt.mpr (hB a ha))]
    simp
  have hfpos : (applyRemoval ((keepOrdered mode results).take (results.length - kc))
        results).filter (fun v => decide (0 ≤ v))
      ~ ((keepOrdered mode results).drop (results.length - kc)).map (fun p => p.2) := by
    refine (hsplit.filter _).trans ?_
    rw [List.filter_append]
    rw [List.filter_eq_nil_iff.mpr (fun a ha => by simpa using not_le.mpr (hA a ha))]
    rw [List.filter_eq_self.mpr (fun a ha => by simpa using hB a ha)]
    simp
  have hmapneg : (((keepOrdered mode results).take (results.length - kc)).map
        (fun p => -p.2)).map (fun v => -v)
      = ((keepOrdered mode results).take (results.length - kc)).map (fun p => p.2) := by
    rw [List.map_map]
    exact List.map_congr_left (fun p _ => by simp)
  have hdcle : results.length - kc ≤ (keepOrdered mode results).length := by
    rw [keepOrdered_length]
    omega
  refine ⟨?_, ?_, ?_, ?_, ?_, ?_⟩
  · refine (List.Perm.append (hfneg.map _) hfpos).trans ?_
    rw [hmapneg, ← List.map_append, List.take_append_drop]
    exact keepOrdered_map_snd_perm mode results
  · rw [hfneg.length_eq, List.length_map, List.length_take]
    rw [keepOrdered_length]
    omega
  · rw [hfpos.length_eq, List.length_map, List.length_drop, keepOrdered_length]
  · intro hmode d hd k hk
    have hperm2 : ((applyRemoval ((keepOrdered mode results).take (results.length - kc))
            results).filter (fun v => decide (v < 0))).map (fun v => -v)
        ~ ((keepOrdered mode results).take (results.length - kc)).map (fun p => p.2) := by
      rw [← hmapneg]
      exact hfneg.map _
    obtain ⟨p, hp, rfl⟩ := List.mem_map.mp (hperm2.mem_iff.mp hd)
    obtain ⟨q, hq, rfl⟩ := List.mem_map.mp (hfpos.mem_iff.mp hk)
    exact pairwise_take_drop (keepOrdered_pairwise_le results hmode) _ p hp q hq
  · intro hmode d hd k hk
    subst hmode
    have hperm2 : ((applyRemoval ((keepOrdered KeepMode.kl results).take (results.length - kc))
            results).filter (fun v => decide (v < 0))).map (fun v => -v)
        ~ ((keepOrdered KeepMode.kl results).take (results.length - kc)).map (fun p => p.2) := by
      rw [← hmapneg]
      exact hfneg.map _
    obtain ⟨p, hp, rfl⟩ := List.mem_map.mp (hperm2.mem_iff.mp hd)
    obtain ⟨q, hq, rfl⟩ := List.mem_map.mp (hfpos.mem_iff.mp hk)
    exact pairwise_take_drop (keepOrdered_pairwise_ge results) _ p hp q hq
  · intro hle
    have : results.length - kc = 0 := by omega
    rw [this, List.take_zero]
    rfl

/-! ### Recoverable errors arise only from the quantity check -/

theorem genRange_no_err (m : Nat) (stream : List Nat) (e : String) :
    genRange m stream ≠ .err e := by
  unfold genRange
  split
  · exact fun h => Outcome.noConfusion h
  · split
    · exact fun h => Outcome.noConfusion h
    · split
      · exact fun h => Outcome.noConfusion h
      · exact fun h => Outcome.noConfusion h

theorem rollDice_no_err : ∀ (n m : Nat) (stream : List Nat) (e : String),
    rollDice n m stream ≠ .err e := by
  intro n
  induction n with
  | zero =>
    intro m stream e h
    exact Outcome.noConfusion h
  | succ n ih =>
    intro m stream e h
    unfold rollDice at h
    split at h
    case _ =>
      split at h
      case isTrue =>
        split at h
        case _ => exact Outcome.noConfusion h
        case _ e2 hrec =>
          exact ih _ _ _ hrec
        case _ => exact Outcome.noConfusion h
      case isFalse => exact Outcome.noConfusion h
    case _ hg => exact genRange_no_err _ _ _ hg
    case _ => exact Outcome.noConfusion h

theorem keepApply_no_err (kp : Option (KeepMode × List Char)) (results : List Int)
    (e : String) : keepApply kp results ≠ .err e := by
  unfold keepApply
  split
  · exact fun h => Outcome.noConfusion h
  · split
    · exact fun h => Outcome.noConfusion h
    · exact fun h => Outcome.noConfusion h

/-! ### Claim theorems -/

/-- C3: for every successfully resolved dice term, `has_critical_success` is
true iff the die has 20 sides and at least one kept (non-negative) entry of
`rolls` equals 20, and `has_critical_failure` iff at least one kept entry
equals 1; moreover, when 20 is not among the kept entries a discarded roll can
never make `has_critical_success` true. -/
theorem c3_critical_flags {off : Nat} {s : List Char} {m : RollMatch} {stream : List Nat}
    {o : StepOut} {dmax : Nat}
    (h : resolveMatch off s m stream = .ok o)
    (hside : parseUsize m.parts.sidesStr = some dmax) :
    (o.rr.has_critical_success = true
        ↔ dmax = 20 ∧ (20 : Int) ∈ o.rr.rolls.filter (fun v => decide (0 ≤ v)))
    ∧ (o.rr.has_critical_failure = true
        ↔ dmax = 20 ∧ (1 : Int) ∈ o.rr.rolls.filter (fun v => decide (0 ≤ v)))
    ∧ (∀ v ∈ o.rr.rolls, v < 0 →
        (20 : Int) ∉ o.rr.rolls.filter (fun v => decide (0 ≤ v)) →
        o.rr.has_critical_success = false) := by
  obtain ⟨dmax2, results0, stream1, results, pos, _, hside2, hroll, hkeep, hpos, hrr, _, _⟩ :=
    resolveMatch_ok h
  rw [hside] at hside2
  cases hside2
  have hsucc : o.rr.has_critical_success
      = (decide (dmax = 20) && results.any (fun v => v == 20)) := by rw [hrr]
  have hfail : o.rr.has_critical_failure
      = (decide (dmax = 20) && results.any (fun v => v == 1)) := by rw [hrr]
  have hrolls : o.rr.rolls = results := by rw [hrr]
  have hiffS : o.rr.has_critical_success = true
      ↔ dmax = 20 ∧ (20 : Int) ∈ o.rr.rolls.filter (fun v => decide (0 ≤ v)) := by
    rw [hsucc, hrolls, Bool.and_eq_true]
    constructor
    · rintro ⟨hd20, hany⟩
      refine ⟨of_decide_eq_true hd20, ?_⟩
      obtain ⟨v, hv, hbeq⟩ := List.any_eq_true.mp hany
      have hv20 : v = 20 := by simpa using hbeq
      subst hv20
      exact List.mem_filter.mpr ⟨hv, by norm_num⟩
    · rintro ⟨hd, hmem⟩
      subst hd
      exact ⟨by simp, List.any_eq_true.mpr ⟨20, (List.mem_filter.mp hmem).1, by simp⟩⟩
  have hiffF : o.rr.has_critical_failure = true
      ↔ dmax = 20 ∧ (1 : Int) ∈ o.rr.rolls.filter (fun v => decide (0 ≤ v)) := by
    rw [hfail, hrolls, Bool.and_eq_true]
    constructor
    · rintro ⟨hd20, hany⟩
      refine ⟨of_decide_eq_true hd20, ?_⟩
      obtain ⟨v, hv, hbeq⟩ := List.any_eq_true.mp hany
      have hv1 : v = 1 := by simpa using hbeq
      subst hv1
      exact List.mem_filter.mpr ⟨hv, by norm_num⟩
    · rintro ⟨hd, hmem⟩
      subst hd
      exact ⟨by simp, List.any_eq_true.mpr ⟨1, (List.mem_filter.mp hmem).1, by simp⟩⟩
  refine ⟨hiffS, hiffF, ?_⟩
  intro v hv hvneg hnotmem
  cases hS : o.rr.has_critical_success with
  | false => rfl
  | true => exact absurd (hiffS.mp hS).2 hnotmem

/-- C3 witness: `2d6k1` with underlying rolls `[5, 2]` keeps the 5, discards
the 2, and (as the die is not 20-sided) reports no critical flag. -/
theorem c3_witness :
    (false = true
        ↔ 6 = 20 ∧ (20 : Int) ∈ ([5, -2] : List Int).filter (fun v => decide (0 ≤ v)))
    ∧ (false = true
        ↔ 6 = 20 ∧ (1 : Int) ∈ ([5, -2] : List Int).filter (fun v => decide (0 ≤ v)))
    ∧ (∀ v ∈ ([5, -2] : List Int), v < 0 →
        (20 : Int) ∉ ([5, -2] : List Int).filter (fun v => decide (0 ≤ v)) →
        false = false) := by
  have h := @c3_critical_flags 0 (strL "2d6k1")
    ⟨[], ⟨strL "2", strL "6", some (KeepMode.k, strL "1"), [], []⟩⟩ [5, 2]
    ⟨⟨strL "2d6k1", [], [5, -2], 5, false, false, 0⟩, strL "5", []⟩ 6
    (by decide) (by decide)
  exact h

/-- C4: under a keep-selector with parsed keep count `kc` and
`drop_count = results.length - kc` (natural-number subtraction, i.e.
`max(0, count - keepCount)`): exactly `drop_count` entries are negated; the
discarded face values together with the kept values are a permutation of the
rolled values; for keep-highest (`k`/`kh`) every discarded face value is `≤`
every kept value, for keep-lowest (`kl`) every discarded face value is `≥`
every kept value; and when `keepCount ≥ count` nothing is discarded. -/
theorem c4_keep_selector {mode : KeepMode} {kcStr : List Char} {kc : Nat}
    {results out : List Int}
    (hparse : parseI32 kcStr = some kc)
    (hok : keepApply (some (mode, kcStr)) results = .ok out)
    (hpos : ∀ v ∈ results, (1 : Int) ≤ v) :
    ((out.filter (fun v => decide (v < 0))).length = results.length - kc)
    ∧ ((out.filter (fun v => decide (0 ≤ v))).length
        = results.length - (results.length - kc))
    ∧ (((out.filter (fun v => decide (v < 0))).map (fun v => -v))
        ++ out.filter (fun v => decide (0 ≤ v)) ~ results)
    ∧ (mode ≠ KeepMode.kl →
        ∀ d ∈ (out.filter (fun v => decide (v < 0))).map (fun v => -v),
        ∀ k ∈ out.filter (fun v => decide (0 ≤ v)), d ≤ k)
    ∧ (mode = KeepMode.kl →
        ∀ d ∈ (out.filter (fun v => decide (v < 0))).map (fun v => -v),
        ∀ k ∈ out.filter (fun v => decide (0 ≤ v)), k ≤ d)
    ∧ (results.length ≤ kc → out = results) := by
  obtain ⟨h1, h2, h3, h4, h5, h6⟩ := keepApply_core hparse hok hpos
  exact ⟨h2, h3, h1, h4, h5, h6⟩

/-- C4 witness: `4d6kl2` on rolls `[3, 5, 2, 6]` discards the two largest
(5 and 6) and keeps the two smallest (3 and 2). -/
theorem c4_witness :
    ((([(3 : Int), -5, 2, -6].filter (fun v => decide (v < 0))).length = 4 - 2)
    ∧ (([(3 : Int), -5, 2, -6].filter (fun v => decide (0 ≤ v))).length = 4 - (4 - 2))
    ∧ ((([(3 : Int), -5, 2, -6].filter (fun v => decide (v < 0))).map (fun v => -v))
        ++ [(3 : Int), -5, 2, -6].filter (fun v => decide (0 ≤ v)) ~ [3, 5, 2, 6])
    ∧ (KeepMode.kl ≠ KeepMode.kl →
        ∀ d ∈ ([(3 : Int), -5, 2, -6].filter (fun v => decide (v < 0))).map (fun v => -v),
        ∀ k ∈ [(3 : Int), -5, 2, -6].filter (fun v => decide (0 ≤ v)), d ≤ k)
    ∧ (KeepMode.kl = KeepMode.kl →
        ∀ d ∈ ([(3 : Int), -5, 2, -6].filter (fun v => decide (v < 0))).map (fun v => -v),
        ∀ k ∈ [(3 : Int), -5, 2, -6].filter (fun v => decide (0 ≤ v)), k ≤ d)
    ∧ (([(3 : Int), 5, 2, 6] : List Int).length ≤ 2 →
        [(3 : Int), -5, 2, -6] = [3, 5, 2, 6])) := by
  have h := @c4_keep_selector KeepMode.kl (strL "2") 2 [3, 5, 2, 6] [3, -5, 2, -6]
    (by decide) (by decide) (by decide)
  exact h

/-- C5 (amended): for every successfully resolved dice term, `roll_total` is
the sum of the non-negative entries reduced modulo `2^32` (wrapping `u32`
addition), hence equal to the exact sum whenever that sum is below `2^32`;
and the number of negative entries plus the number of non-negative entries
equals the parsed dice count. -/
theorem c5_total_and_counts {off : Nat} {s : List Char} {m : RollMatch} {stream : List Nat}
    {o : StepOut} (h : resolveMatch off s m stream = .ok o) :
    o.rr.roll_total = keptSum o.rr.rolls % U32_MOD
    ∧ (keptSum o.rr.rolls < U32_MOD → o.rr.roll_total = keptSum o.rr.rolls)
    ∧ (o.rr.rolls.filter (fun v => decide (v < 0))).length
        + (o.rr.rolls.filter (fun v => decide (0 ≤ v))).length = diceCountOf m := by
  obtain ⟨dmax, results0, stream1, results, pos, _, _, hroll, hkeep, _, hrr, _, _⟩ :=
    resolveMatch_ok h
  have hlen0 : results0.length = diceCountOf m := (rollDice_ok hroll).1
  have hlen : results.length = results0.length := keepApply_length hkeep
  have htot : o.rr.roll_total = rollTotalFold results := by rw [hrr]
  have hrolls : o.rr.rolls = results := by rw [hrr]
  rw [htot, hrolls, rollTotalFold_eq]
  refine ⟨rfl, ?_, ?_⟩
  · intro hlt
    exact Nat.mod_eq_of_lt hlt
  · rw [filter_sign_count, hlen, hlen0]

/-- C5 witness: a single `2d6` term with rolls `[3, 4]`. -/
theorem c5_witness :
    (7 : Nat) = keptSum [(3 : Int), 4] % U32_MOD
    ∧ (keptSum [(3 : Int), 4] < U32_MOD → (7 : Nat) = keptSum [(3 : Int), 4])
    ∧ (([(3 : Int), 4].filter (fun v => decide (v < 0))).length
        + ([(3 : Int), 4].filter (fun v => decide (0 ≤ v))).length
        = diceCountOf ⟨[], ⟨strL "2", strL "6", none, [], []⟩⟩) :=
  @c5_total_and_counts 0 (strL "2d6") ⟨[], ⟨strL "2", strL "6", none, [], []⟩⟩ [3, 4]
    ⟨⟨strL "2d6", [], [3, 4], 7, false, false, 0⟩, strL "7", []⟩ (by decide)

/-- C5 counterexample: `3d2147483647` with three maximal rolls wraps the `u32`
total to 2147483645, while the exact sum of the kept values is 6442450941. -/
theorem c5_counterexample :
    interpretFuel 5 (strL "3d2147483647") 0 [2147483647, 2147483647, 2147483647]
      = .ok (⟨strL "3d2147483647", strL "2147483645",
          [⟨strL "3d2147483647", [], [2147483647, 2147483647, 2147483647], 2147483645,
            false, false, 0⟩]⟩, [])
    ∧ keptSum [(2147483647 : Int), 2147483647, 2147483647] = 6442450941
    ∧ (2147483645 : Nat) ≠ 6442450941 :=
  ⟨by decide, by decide, by decide⟩

/-- C6 (amended): a quantity error is returned exactly for a count substring
that parses as a 64-bit `usize` exceeding 1000, and it is returned for every
rng trace (so before any roll is consumed); when the parsed count (default 1
on parse failure, including overflow past `usize::MAX`) is at most 1000 the
resolution never returns a recoverable error at all. -/
theorem c6_quantity_check_amended :
    (∀ (off : Nat) (s : List Char) (m : RollMatch) (stream : List Nat) (n : Nat),
      parseUsize m.parts.countStr = some n → MAX_QUANTITY < n →
      resolveMatch off s m stream = .err "Max number of dice is 1000")
    ∧ (∀ (off : Nat) (s : List Char) (m : RollMatch) (stream : List Nat),
      diceCountOf m ≤ MAX_QUANTITY →
      ∀ e, resolveMatch off s m stream ≠ .err e) := by
  constructor
  · intro off s m stream n hparse hgt
    have hdc : diceCountOf m = n := by
      unfold diceCountOf
      rw [hparse]
      rfl
    unfold resolveMatch
    rw [if_pos (by omega : diceCountOf m > MAX_QUANTITY)]
  · intro off s m stream hle e hcontra
    unfold resolveMatch at hcontra
    rw [if_neg (by omega : ¬diceCountOf m > MAX_QUANTITY)] at hcontra
    split at hcontra
    · exact Outcome.noConfusion hcontra
    · split at hcontra
      case _ =>
        split at hcontra
        case _ =>
          split at hcontra
          · exact Outcome.noConfusion hcontra
          · exact Outcome.noConfusion hcontra
        case _ e2 hk => exact keepApply_no_err _ _ _ hk
        case _ => exact Outcome.noConfusion hcontra
      case _ e2 hr => exact rollDice_no_err _ _ _ _ hr
      case _ => exact Outcome.noConfusion hcontra

/-- C6 witness: `1001d6` is rejected with the quantity error on the empty
rng trace, i.e. before any roll is generated. -/
theorem c6_witness :
    resolveMatch 0 (strL "1001d6") ⟨[], ⟨strL "1001", strL "6", none, [], []⟩⟩ []
      = .err "Max number of dice is 1000" :=
  c6_quantity_check_amended.1 0 (strL "1001d6")
    ⟨[], ⟨strL "1001", strL "6", none, [], []⟩⟩ [] 1001 (by decide) (by decide)

/-- C6 counterexample: the dice count `18446744073709551616` (`2^64`) exceeds
1000 but overflows `usize`, so it parses as `none`, silently defaults to 1 and
is resolved without any quantity error. -/
theorem c6_counterexample :
    interpretFuel 5 (strL "18446744073709551616d6") 0 [1]
        ≠ .err "Max number of dice is 1000"
    ∧ 1000 < digitsToNat (strL "18446744073709551616")
    ∧ parseUsize (strL "18446744073709551616") = none :=
  ⟨by decide, by decide, by decide⟩

/-- C8: a resolution step replaces exactly the dice-term span (capture group 1)
of the working text with the decimal digits of `roll_total`; the text before
the term, the attached arithmetic suffix and all text after it are unchanged,
and the suffix is additionally stored on the `RollResult` as
`non_roll_portion`. -/
theorem c8_frame {off : Nat} {s : List Char} {m : RollMatch} {stream : List Nat} {o : StepOut}
    (hfind : rollFind s = some m)
    (h : resolveMatch off s m stream = .ok o) :
    s = m.pre ++ m.g1 ++ m.parts.suffix ++ m.parts.rest
    ∧ o.newText = m.pre ++ natChars o.rr.roll_total ++ m.parts.suffix ++ m.parts.rest
    ∧ o.rr.non_roll_portion = m.parts.suffix := by
  have hs := rollFind_spec hfind
  obtain ⟨dmax, results0, stream1, results, pos, _, _, _, _, _, hrr, hnew, _⟩ :=
    resolveMatch_ok h
  have htot : o.rr.roll_total = rollTotalFold results := by rw [hrr]
  refine ⟨hs, ?_, by rw [hrr]⟩
  have htake : (m.pre ++ m.g1 ++ m.parts.suffix ++ m.parts.rest).take m.pre.length = m.pre := by
    rw [List.append_assoc, List.append_assoc, List.take_left]
  have hdrop : (m.pre ++ m.g1 ++ m.parts.suffix ++ m.parts.rest).drop
      (m.pre.length + m.g1.length) = m.parts.suffix ++ m.parts.rest := by
    rw [← List.length_append, List.append_assoc (m.pre ++ m.g1), List.drop_left]
  rw [hnew, htot, hs, htake, hdrop]
  simp [List.append_assoc]

/-- C8 witness: the step on `1d6+2` with roll 4 rewrites the text to `4+2`,
leaving the suffix `+2` in place and storing it on the result. -/
theorem c8_witness :
    strL "1d6+2"
      = [] ++ RollMatch.g1 ⟨[], ⟨strL "1", strL "6", none, strL "+2", []⟩⟩ ++ strL "+2" ++ []
    ∧ strL "4+2" = [] ++ natChars 4 ++ strL "+2" ++ []
    ∧ strL "+2" = strL "+2" :=
  @c8_frame 0 (strL "1d6+2") ⟨[], ⟨strL "1", strL "6", none, strL "+2", []⟩⟩ [4]
    ⟨⟨strL "1d6", strL "+2", [4], 4, false, false, 0⟩, strL "4+2", []⟩
    (by decide) (by decide)

/-- C10: a dice term with an explicit count of 0 resolves without error and
without consuming any rng value; the produced `RollResult` has no rolled
values, total 0 and both critical flags false, and the term's span is replaced
by `0`; concretely, `0d6` interprets to the working text `0`. -/
theorem c10_zero_count :
    (∀ (off : Nat) (s : List Char) (m : RollMatch) (stream : List Nat) (o : StepOut),
      parseUsize m.parts.countStr = some 0 →
      resolveMatch off s m stream = .ok o →
      o.rr.rolls = [] ∧ o.rr.roll_total = 0 ∧ o.rr.has_critical_success = false
        ∧ o.rr.has_critical_failure = false ∧ o.stream = stream
        ∧ o.newText = s.take m.pre.length ++ strL "0"
            ++ s.drop (m.pre.length + m.g1.length))
    ∧ interpretFuel 5 (strL "0d6") 0 []
        = .ok (⟨strL "0d6", strL "0", [⟨strL "0d6", [], [], 0, false, false, 0⟩]⟩, []) := by
  constructor
  · intro off s m stream o hzero hok
    obtain ⟨dmax, results0, stream1, results, pos, _, _, hroll, hkeep, _, hrr, hnew, hstr⟩ :=
      resolveMatch_ok hok
    have hdc : diceCountOf m = 0 := by
      unfold diceCountOf
      rw [hzero]
      rfl
    rw [hdc] at hroll
    have hnil : results0 = [] ∧ stream1 = stream := by
      unfold rollDice at hroll
      cases hroll
      exact ⟨rfl, rfl⟩
    obtain ⟨rfl, rfl⟩ := hnil
    have hres : results = [] := by
      have hl := keepApply_length hkeep
      exact List.length_eq_zero.mp (by simpa using hl)
    subst hres
    refine ⟨by rw [hrr], by rw [hrr]; rfl, by rw [hrr]; simp, by rw [hrr]; simp,
      by rw [hstr], ?_⟩
    rw [hnew]
    rw [show natChars (rollTotalFold ([] : List Int)) = strL "0" from by decide]
  · decide

/-- C1: the interpreter does not return a recoverable parse error for a term
whose sides field fails to parse after upstream syntax acceptance — it panics.
`1d99999999999999999999999` passes the command regex, but its sides string
overflows `usize`, so `parse::<usize>().expect(...)` aborts with
`Error while parsing dice max.` instead of producing a `MalformedTerm`-style
error value. -/
theorem c1_sides_overflow_panics :
    interpretFuel 5 (strL "1d99999999999999999999999") 0 []
      = .panic "Error while parsing dice max."
    ∧ parseUsize (strL "99999999999999999999999") = none :=
  ⟨by decide, by decide⟩

/-- C2 counterexample: on `(1d6+2)*2` with an underlying roll of 4 the working
text becomes `4+2*2` — not `(4+2)*2` — and the flattened text evaluates to 8,
not 12 (the parentheses are dropped by the substitution, so `*` binds
tighter). -/
theorem c2_counterexample :
    interpretFuel 9 (strL "(1d6+2)*2") 0 [4]
      = .ok (⟨strL "(1d6+2)*2", strL "4+2*2",
          [⟨strL "1d6", strL "+2", [4], 4, false, false, 1⟩]⟩, [])
    ∧ strL "4+2*2" ≠ strL "(4+2)*2"
    ∧ evalArith (strL "4+2*2") = some ⟨8, 1⟩
    ∧ dispQ ⟨8, 1⟩ = strL "8"
    ∧ (⟨8, 1⟩ : Frac) ≠ ⟨12, 1⟩ :=
  ⟨by decide, by decide, by decide, by decide, by decide⟩

/-- C2 (amended): the paren resolver repeatedly replaces each parenthesized
span, parentheses included, with the interpreted flattened text of its
interior — dropping the grouping parentheses — and loops until no
parenthesized span remains; for `(1d6+2)*2` with an underlying roll of 4 the
working text becomes `4+2*2` and the rendered result shown to the user is 8. -/
theorem c2_paren_resolution_amended :
    (∀ (f : Nat) (s : List Char) (stream : List Nat) (t : List Char)
      (rs : List RollResult) (stream2 : List Nat),
      parenLoop f s stream = .ok (t, rs, stream2) → parenFind t = none)
    ∧ interpretFuel 9 (strL "(1d6+2)*2") 0 [4]
        = .ok (⟨strL "(1d6+2)*2", strL "4+2*2",
            [⟨strL "1d6", strL "+2", [4], 4, false, false, 1⟩]⟩, [])
    ∧ formatRolls ⟨strL "(1d6+2)*2", strL "4+2*2",
          [⟨strL "1d6", strL "+2", [4], 4, false, false, 1⟩]⟩
        = .ok (strL "(1d6+2)\\*2\n1d6 (4 -> 4)+2 = 6\n**8**") :=
  ⟨fun f _ _ _ _ _ h => parenLoop_ok_none f h, by decide, by decide⟩

/-- C2 witness: after the paren phase of `(1d6+2)*2` no parenthesized span
remains in the working text `4+2*2`. -/
theorem c2_witness : parenFind (strL "4+2*2") = none :=
  c2_paren_resolution_amended.1 8 (strL "(1d6+2)*2") [4] (strL "4+2*2")
    [⟨strL "1d6", strL "+2", [4], 4, false, false, 1⟩] [] (by decide)

/-- C7 counterexample: in `10d1 + 1d1` the second term `1d1` sits at byte 7 of
the original command, but after the first term is rewritten to `10` the
working text is `10 + 1d1`, so its recorded `sorting_priority` is 5, not 7. -/
theorem c7_counterexample :
    interpretFuel 9 (strL "10d1 + 1d1") 0 (List.replicate 11 1)
      = .ok (⟨strL "10d1 + 1d1", strL "10 + 1",
          [⟨strL "10d1", [], List.replicate 10 1, 10, false, false, 0⟩,
           ⟨strL "1d1", [], [1], 1, false, false, 5⟩]⟩, [])
    ∧ firstOccur (strL "1d1") (strL "10d1 + 1d1") = some 7
    ∧ (5 : Nat) ≠ 7 :=
  ⟨by decide, by decide, by decide⟩

/-- C7 (amended): each `RollResult.sorting_priority` is the first-occurrence
index of the term's full matched text in the working text at the moment it is
resolved, plus the recursion offset — not necessarily its position in the
original un-rewritten command — and the returned rolls list is sorted
ascending by `sorting_priority`. -/
theorem c7_order_key_amended :
    (∀ (f : Nat) (input : List Char) (off : Nat) (stream : List Nat)
      (r : RollStringResult) (stream2 : List Nat),
      interpretFuel f input off stream = .ok (r, stream2) →
      List.Pairwise prioLe r.rolls)
    ∧ interpretFuel 9 (strL "10d1 + 1d1") 0 (List.replicate 11 1)
        = .ok (⟨strL "10d1 + 1d1", strL "10 + 1",
            [⟨strL "10d1", [], List.replicate 10 1, 10, false, false, 0⟩,
             ⟨strL "1d1", [], [1], 1, false, false, 5⟩]⟩, []) := by
  constructor
  · intro f input off stream r stream2 h
    obtain ⟨l, hl⟩ := interpret_ok_rolls f h
    rw [hl]
    exact List.sorted_insertionSort prioLe l
  · decide

/-- C7 witness: the two rolls of `10d1 + 1d1` come back sorted by
`sorting_priority`. -/
theorem c7_witness :
    List.Pairwise prioLe
      [⟨strL "10d1", [], List.replicate 10 1, 10, false, false, 0⟩,
       ⟨strL "1d1", [], [1], 1, false, false, 5⟩] :=
  c7_order_key_amended.1 9 (strL "10d1 + 1d1") 0 (List.replicate 11 1)
    ⟨strL "10d1 + 1d1", strL "10 + 1",
      [⟨strL "10d1", [], List.replicate 10 1, 10, false, false, 0⟩,
       ⟨strL "1d1", [], [1], 1, false, false, 5⟩]⟩ [] (by decide)

/-- C9 counterexample: the per-term line the renderer actually produces for a
`1d4` roll of 2 with suffix `+2` is `1d4 (2 -> 2)+2 = 4` — the kept total is
echoed after an arrow inside the parentheses and no space precedes the
suffix — whereas the line prescribed by the specification's format would be
`1d4 (2) +2 = 4`; no line of the rendered trace has the prescribed form. -/
theorem c9_counterexample :
    formatRolls ⟨strL "1d4+2", strL "2+2", [⟨strL "1d4", strL "+2", [2], 2, false, false, 0⟩]⟩
      = .ok (strL "1d4+2\n1d4 (2 -> 2)+2 = 4\n**4**")
    ∧ (strL "1d4+2\n1d4 (2 -> 2)+2 = 4\n**4**").splitOn '\n'
        = [strL "1d4+2", strL "1d4 (2 -> 2)+2 = 4", strL "**4**"]
    ∧ specTermLine ⟨strL "1d4", strL "+2", [2], 2, false, false, 0⟩ = strL "1d4 (2) +2 = 4"
    ∧ strL "1d4 (2) +2 = 4" ∉ (strL "1d4+2\n1d4 (2 -> 2)+2 = 4\n**4**").splitOn '\n' :=
  ⟨by decide, by decide, by decide, by decide⟩

/-- C9 (amended): the rendered trace is the escaped original, then one line
per `RollResult` in list order of the form
`original_text (v1, v2, ... -> kept_total)suffix = subtotal` followed by bold
`CRITICAL SUCCESS!`/`CRITICAL FAILURE!` markers, then — iff more than one
`RollResult` exists — the escaped flattened text, then the bolded final
result; discarded values are struck through showing their positive face value
and kept values are rendered plainly. -/
theorem c9_trace_format_amended :
    (∀ (r : RollStringResult) (fullQ : Frac),
      evalArith r.converted_text = some fullQ →
      (∀ rr ∈ r.rolls, (evalArith (natChars rr.roll_total ++ rr.non_roll_portion)).isSome) →
      formatRolls r = .ok (escStar r.original_text ++ '\n' :: (r.rolls.map termLineStr).flatten
        ++ (if r.rolls.length > 1 then escStar r.converted_text ++ ['\n'] else [])
        ++ strL "**" ++ dispQ fullQ ++ strL "**"))
    ∧ (∀ rolls : List Int, rollValsText rolls
        = List.intercalate (strL ", ")
            (rolls.map (fun v =>
              if v < 0 then strL "~~" ++ natChars (-v).toNat ++ strL "~~"
              else natChars v.toNat))) := by
  constructor
  · intro r fullQ hfull hall
    unfold formatRolls
    rw [hfull, linesFold_eq hall]
  · intro rolls
    unfold rollValsText
    congr 1
    apply List.map_congr_left
    intro v _
    by_cases h : v < 0
    · rw [if_pos h, if_pos h]
    · rw [if_neg h, if_neg h]
      unfold intChars
      rw [if_neg h, escStar_natChars]

/-- C9 witness: the rendered trace for a single `1d4+2` roll of 2 matches the
amended line format, with no flattened-text line (only one roll). -/
theorem c9_witness :
    formatRolls ⟨strL "1d4+2", strL "2+2", [⟨strL "1d4", strL "+2", [2], 2, false, false, 0⟩]⟩
      = .ok (escStar (strL "1d4+2") ++ '\n'
          :: (([⟨strL "1d4", strL "+2", [2], 2, false, false, 0⟩] :
                List RollResult).map termLineStr).flatten
          ++ (if ([(⟨strL "1d4", strL "+2", [2], 2, false, false, 0⟩ : RollResult)]).length > 1
              then escStar (strL "2+2") ++ ['\n'] else [])
          ++ strL "**" ++ dispQ ⟨4, 1⟩ ++ strL "**") :=
  c9_trace_format_amended.1
    ⟨strL "1d4+2", strL "2+2", [⟨strL "1d4", strL "+2", [2], 2, false, false, 0⟩]⟩ ⟨4, 1⟩
    (by decide) (by decide)

/-- C10 witness: the `0d6` step itself, on the empty rng trace. -/
theorem c10_witness :
    ([] : List Int) = [] ∧ (0 : Nat) = 0 ∧ false = false ∧ false = false
    ∧ ([] : List Nat) = []
    ∧ strL "0" = (strL "0d6").take ([] : List Char).length ++ strL "0"
        ++ (strL "0d6").drop (([] : List Char).length
            + (RollMatch.g1 ⟨[], ⟨strL "0", strL "6", none, [], []⟩⟩).length) := by
  have h := c10_zero_count.1 0 (strL "0d6") ⟨[], ⟨strL "0", strL "6", none, [], []⟩⟩ []
    ⟨⟨strL "0d6", [], [], 0, false, false, 0⟩, strL "0", []⟩ (by decide) (by decide)
  exact h

end Wakebot
